import Mathlib

/-!
Verification of the two scripts of this repository:

* `merge_files.py` — merges per-session PDFs (`lecturenotes/Ses<N.M>sum.pdf`,
  `problemsets/Ses<N.M>prob.pdf`) into one `merged.pdf`, dropping the last
  page of every source document and padding each session to an even page
  count with a generated "dot" filler page.
* `rename_files.py` — renames PDFs in the current directory by substituting
  `.*?(Ses\d+\.\d+(sum|prob)\.pdf)` with the captured group.

The embedding models PDF documents as lists of pages (a page carries its
mediabox width/height, as rational numbers, plus a label standing for its
content identity), the filesystem as explicit directory listings plus a
read function that may fail (an unreadable / malformed PDF is a read that
returns an error), and Python dictionaries as association lists with
insertion-order and overwrite semantics.

Case-insensitive matching (`re.IGNORECASE`, `str.lower`) is modelled with
ASCII lower-casing via `Char.toLower`; the exotic non-ASCII case pairs of
Python's `re` module (e.g. the long s) are outside the model, and all names
in the claims are ASCII.
-/

namespace PdfMerge

/-- ASCII-oriented lower-casing, modelling Python's case-insensitive regex
matching and `str.lower` on the ASCII names involved.  This is
`Char.toLower`, written over `Char.toNat` so all arithmetic stays in `Nat`. -/
def lcChar (c : Char) : Char :=
  if 65 ≤ c.toNat ∧ c.toNat ≤ 90 then Char.ofNat (c.toNat + 32) else c

/-- The regex class `\d` on the ASCII digits (as with case folding, the
non-ASCII Unicode decimal digits accepted by Python's `re` are outside the
model; every name in the claims is ASCII). -/
def isDig (c : Char) : Bool := decide (48 ≤ c.toNat ∧ c.toNat ≤ 57)

/-- `str.lower` of Python, on the ASCII strings produced by the matcher. -/
def lowerStr (s : String) : String := String.mk (s.data.map lcChar)

/-- Case-insensitive literal matching at the head of a character list:
returns the consumed characters (in their original case) and the rest. -/
def stripCI : List Char → List Char → Option (List Char × List Char)
  | [], s => some ([], s)
  | _ :: _, [] => none
  | p :: ps, c :: cs =>
    if lcChar c = lcChar p then
      match stripCI ps cs with
      | some (m, r) => some (c :: m, r)
      | none => none
    else none

def sesChars : List Char := ['s', 'e', 's']
def sumChars : List Char := ['s', 'u', 'm']
def probChars : List Char := ['p', 'r', 'o', 'b']
def pdfChars : List Char := ['.', 'p', 'd', 'f']

/-- The regex `Ses(\d+\.\d+)(sum|prob)\.pdf` of `merge_files.py`, compiled
with `re.IGNORECASE` and applied with `pattern.match`, i.e. anchored at the
start of the name only.  Returns the two captured groups (in original case)
together with the characters remaining after the match.  Both `\d+` pieces
are greedy, but since neither `.` nor the leading letters of `sum`/`prob`
are digits, greedy matching with backtracking coincides with the
maximal-munch scan used here. -/
def sesMatchRest (l : List Char) : Option ((String × String) × List Char) :=
  match stripCI sesChars l with
  | none => none
  | some (_, r1) =>
    if (r1.takeWhile isDig).isEmpty then none else
    match r1.dropWhile isDig with
    | [] => none
    | c :: r3 =>
      if c = '.' then
        if (r3.takeWhile isDig).isEmpty then none else
        match stripCI sumChars (r3.dropWhile isDig) with
        | some (kd, r5) =>
          (match stripCI pdfChars r5 with
           | some (_, r6) =>
             some ((String.mk (r1.takeWhile isDig ++ '.' :: r3.takeWhile isDig),
               String.mk kd), r6)
           | none => none)
        | none =>
          match stripCI probChars (r3.dropWhile isDig) with
          | some (kd, r5) =>
            (match stripCI pdfChars r5 with
             | some (_, r6) =>
               some ((String.mk (r1.takeWhile isDig ++ '.' :: r3.takeWhile isDig),
                 String.mk kd), r6)
             | none => none)
          | none => none
      else none

/-- `pattern.match(f)` followed by `m.groups()`: the (session id, kind)
pair for a recognized filename, `none` otherwise. -/
def sesMatch (f : String) : Option (String × String) :=
  (sesMatchRest f.data).map Prod.fst

/-- A page of a PDF document: its mediabox dimensions in points, and a
label standing for the identity of its content. -/
structure Page where
  width : Rat
  height : Rat
  label : String
deriving DecidableEq, Repr

/-- A PDF document is its list of pages. -/
abbrev Doc := List Page

/-- `reportlab.lib.pagesizes.A4` (the Python float values are the binary
approximations of these decimals; the exact value is irrelevant here, the
fallback branch using it is proved unreachable). -/
def A4w : Rat := 5952755905511812 / 10000000000000
def A4h : Rat := 8418976377952756 / 10000000000000

/-- `create_dot_page(width_pts, height_pts)`: a one-page PDF of the given
size containing a small visible dot. -/
def create_dot_page (w h : Rat) : Page := { width := w, height := h, label := "." }

/-- The filesystem seen by the script: the directory listings that exist
(`os.path.isdir` / `os.listdir`), and PDF reading (`PdfReader`), which
fails on an unreadable or malformed file. -/
structure FS where
  dirs : List (String × List String)
  readPdf : String → Except Unit Doc

/-- Python `dict` lookup (`k in d` / `d[k]`) for string keys. -/
def alookup {β : Type} : List (String × β) → String → Option β
  | [], _ => none
  | (k2, v) :: rest, k => if k2 = k then some v else alookup rest k

/-- Python `d[k] = v`: overwrite if present (keeping insertion order),
append otherwise. -/
def setKV {β : Type} : List (String × β) → String → β → List (String × β)
  | [], k, v => [(k, v)]
  | (k2, v2) :: rest, k, v =>
    if k2 = k then (k2, v) :: rest else (k2, v2) :: setKV rest k v

/-- A session entry: the dictionary kind ↦ file path ({"sum": …, "prob": …}). -/
abbrev Entry := List (String × String)

/-- The combined mapping session id ↦ entry. -/
abbrev Sessions := List (String × Entry)

/-- `mapping.setdefault(sesnum, {})[kind] = path` of `collect_files_from`. -/
def setKind : Sessions → String → String → String → Sessions
  | [], ses, kind, path => [(ses, [(kind, path)])]
  | (s2, e2) :: rest, ses, kind, path =>
    if s2 = ses then (s2, setKV e2 kind path) :: rest
    else (s2, e2) :: setKind rest ses kind path

/-- `dst.update(src)` on an entry dictionary. -/
def updEntry (e add : Entry) : Entry :=
  add.foldl (fun acc kv => setKV acc kv.1 kv.2) e

/-- `sessions.setdefault(sesnum, {}).update(entry)` of the module-level
dictionary merge. -/
def updSession : Sessions → String → Entry → Sessions
  | [], ses, ent => [(ses, updEntry [] ent)]
  | (s2, e2) :: rest, ses, ent =>
    if s2 = ses then (s2, updEntry e2 ent) :: rest
    else (s2, e2) :: updSession rest ses ent

/-- `collect_files_from(folder)`: an absent directory yields the empty
mapping; otherwise every listed filename is matched against the pattern and
recorded under its lower-cased kind with path `folder + "/" + f`. -/
def collect_files_from (fs : FS) (folder : String) : Sessions :=
  match alookup fs.dirs folder with
  | none => []
  | some files =>
    files.foldl (fun mapping f =>
      match sesMatch f with
      | none => mapping
      | some (sesnum, kind) =>
          setKind mapping sesnum (lowerStr kind) (folder ++ "/" ++ f)) []

/-- The module-level merge of `sum_files` and `prob_files` into `sessions`. -/
def combineSessions (sum_files prob_files : Sessions) : Sessions :=
  prob_files.foldl (fun acc p => updSession acc p.1 p.2)
    (sum_files.foldl (fun acc p => updSession acc p.1 p.2) [])

/-- The combined mapping built by the script from its two fixed folders. -/
def sessionsOf (fs : FS) : Sessions :=
  combineSessions (collect_files_from fs "lecturenotes")
    (collect_files_from fs "problemsets")

/-- `int(x)` on a component consisting of digits. -/
def strToNatL (l : List Char) : Nat :=
  l.foldl (fun a c => 10 * a + (c.toNat - 48)) 0

/-- Python `s.split(".")` on the character list of the session id. -/
def splitDot : List Char → List (List Char)
  | [] => [[]]
  | c :: cs =>
    if c = '.' then [] :: splitDot cs
    else
      match splitDot cs with
      | [] => [[c]]
      | g :: gs => (c :: g) :: gs

/-- The sort key `[int(x) for x in s.split(".")]`. -/
def sortKey (s : String) : List Nat := (splitDot s.data).map strToNatL

/-- Python's lexicographic comparison of two lists of integers. -/
def keyLe : List Nat → List Nat → Bool
  | [], _ => true
  | _ :: _, [] => false
  | a :: as, b :: bs =>
    if a < b then true else if b < a then false else keyLe as bs

/-- Comparison of two sessions by their numeric sort keys. -/
def sesLe (a b : String × Entry) : Bool := keyLe (sortKey a.1) (sortKey b.1)

/-- Stable insertion into a sorted list (equal keys keep their order). -/
def insSes (x : String × Entry) : Sessions → Sessions
  | [] => [x]
  | y :: ys => if sesLe x y then x :: y :: ys else y :: insSes x ys

/-- Python's `sorted(sessions.keys(), key=…)` (paired with the dictionary
indexing that follows it): `sorted` is specified as a stable sort, modelled
here by stable insertion sort. -/
def sortSessions : Sessions → Sessions
  | [] => []
  | x :: xs => insSes x (sortSessions xs)

/-- The reference page size taken from the first page of a document
(`r.pages[0].mediabox`), when the document has at least one page. -/
def firstDims (d : Doc) : Option (Rat × Rat) :=
  match d with
  | [] => none
  | p :: _ => some (p.width, p.height)

/-- `for i in range(max(0, len(r.pages) - 1)): out.add_page(r.pages[i])` —
every page except the last (`Nat` subtraction already truncates at 0,
mirroring the `max(0, …)` guard). -/
def copyPages (d : Doc) : List Page := d.take (d.length - 1)

/-- The filler page, sized to the recorded dimensions when both were
recorded, and to the A4 fallback otherwise (the source checks
`page_width is None or page_height is None`; the two variables are always
assigned together, so they are modelled as one optional pair). -/
def mkFiller (dims : Option (Rat × Rat)) : Page :=
  match dims with
  | none => create_dot_page A4w A4h
  | some (w, h) => create_dot_page w h

/-- The tail of the per-session loop body: `pages_added` is the length
difference since the session started (`len(out.pages) - start_page_count`),
and a filler page is appended when that count is odd. -/
def finishSession (start_page_count : Nat) (out2 : List Page)
    (dims : Option (Rat × Rat)) : List Page :=
  if (out2.length - start_page_count) % 2 ≠ 0 then out2 ++ [mkFiller dims] else out2

/-- One iteration of the merge loop for the session entry `pair`,
starting from the accumulated output `out`:
skip when no summary path is present; otherwise read the summary, record
the reference size from its first page, copy all its pages but the last,
do the same for the problem document when present, and pad to an even
per-session page count. -/
def processSession (readF : String → Except Unit Doc) (out : List Page)
    (pair : Entry) : Except Unit (List Page) :=
  match alookup pair "sum" with
  | none => Except.ok out
  | some sum_file =>
    match readF sum_file with
    | Except.error e => Except.error e
    | Except.ok r =>
      let dims1 := firstDims r
      let out1 := out ++ copyPages r
      match alookup pair "prob" with
      | none => Except.ok (finishSession out.length out1 dims1)
      | some prob_file =>
        match readF prob_file with
        | Except.error e => Except.error e
        | Except.ok r2 =>
          let dims2 :=
            match dims1 with
            | some d => some d
            | none => firstDims r2
          Except.ok (finishSession out.length (out1 ++ copyPages r2) dims2)

/-- The whole merge loop: sessions in sorted order, output accumulated from
the empty writer; any read error aborts the fold. -/
def mergeSessions (readF : String → Except Unit Doc) (sessions : Sessions) :
    Except Unit (List Page) :=
  (sortSessions sessions).foldlM (fun out p => processSession readF out p.2) []

/-- How a run of `merge_files.py` can end without producing `merged.pdf`:
the deliberate `SystemExit(1)` on an empty combined mapping, or an
uncaught PDF read error. -/
inductive ScriptErr where
  | exit1
  | pdfErr
deriving DecidableEq, Repr

/-- The whole script: collect both folders, combine, exit with status 1 on
an empty mapping, otherwise run the merge loop (whose read errors
propagate uncaught). -/
def script (fs : FS) : Except ScriptErr (List Page) :=
  let sessions := sessionsOf fs
  if sessions.isEmpty then Except.error ScriptErr.exit1
  else
    match mergeSessions fs.readPdf sessions with
    | Except.error _ => Except.error ScriptErr.pdfErr
    | Except.ok pages => Except.ok pages

/-- The files the run writes: `merged.pdf` is opened and written exactly
once, after the loop over all sessions has finished; nothing is written
when the run aborts earlier. -/
def writtenFiles (fs : FS) : List (String × List Page) :=
  match script fs with
  | Except.ok pages => [("merged.pdf", pages)]
  | Except.error _ => []

/-! ## The rename utility (`rename_files.py`) -/

/-- Case-sensitive literal matching at the head of a character list
(the rename regex is compiled without `re.IGNORECASE`). -/
def stripExact : List Char → List Char → Option (List Char)
  | [], s => some s
  | _ :: _, [] => none
  | p :: ps, c :: cs => if c = p then stripExact ps cs else none

def sesCSChars : List Char := ['S', 'e', 's']

/-- The group `(Ses\d+\.\d+(sum|prob)\.pdf)` of the rename regex, matched
case-sensitively at the head of `l`: the matched characters and the rest.
As for the merge-side pattern, greedy `\d+` coincides with maximal munch. -/
def sesCS (l : List Char) : Option (List Char × List Char) :=
  match stripExact sesCSChars l with
  | none => none
  | some r1 =>
    if (r1.takeWhile isDig).isEmpty then none else
    match r1.dropWhile isDig with
    | [] => none
    | c :: r3 =>
      if c = '.' then
        if (r3.takeWhile isDig).isEmpty then none else
        match stripExact sumChars (r3.dropWhile isDig) with
        | some r5 =>
          (match stripExact pdfChars r5 with
           | some r6 =>
             some (sesCSChars ++ r1.takeWhile isDig ++
               '.' :: r3.takeWhile isDig ++ sumChars ++ pdfChars, r6)
           | none => none)
        | none =>
          match stripExact probChars (r3.dropWhile isDig) with
          | some r5 =>
            (match stripExact pdfChars r5 with
             | some r6 =>
               some (sesCSChars ++ r1.takeWhile isDig ++
                 '.' :: r3.takeWhile isDig ++ probChars ++ pdfChars, r6)
             | none => none)
          | none => none
      else none

/-- The leftmost occurrence of the group pattern in `l`: the characters
before it, the matched characters, and the rest after it. -/
def findMatchIdx : List Char → Option (List Char × List Char × List Char)
  | [] => none
  | c :: cs =>
    match sesCS (c :: cs) with
    | some (m, r) => some ([], m, r)
    | none => (findMatchIdx cs).map (fun pmr => (c :: pmr.1, pmr.2.1, pmr.2.2))

/-- What survives of the text standing before a group occurrence: `.*?`
does not match a newline, so only the segment after the last newline is
consumed (and deleted) by the substitution; everything up to and including
that newline stays. -/
def keepPart (pre : List Char) : List Char :=
  (pre.reverse.dropWhile (fun c => !(c = '\n'))).reverse

/-- `re.sub(r".*?(Ses\d+\.\d+(sum|prob)\.pdf)", r"\1", …)`: every
non-overlapping occurrence of lazy-gap-plus-group is replaced by the group
alone, scanning left to right.  The fuel argument only serves totality:
each step consumes at least the matched group, which is nonempty, so
`l.length` steps always suffice. -/
def subSesF : Nat → List Char → List Char
  | 0, l => l
  | fuel + 1, l =>
    match findMatchIdx l with
    | none => l
    | some (pre, m, r) => keepPart pre ++ m ++ subSesF fuel r

def subSes (l : List Char) : List Char := subSesF l.length l

def subSesStr (f : String) : String := String.mk (subSes f.data)

/-- `filename.endswith(".pdf")` (case-sensitive). -/
def endsPdf (f : String) : Bool := pdfChars.isSuffixOf f.data

/-- Occurrence of `pat` as a contiguous subsequence of `l`. -/
def containsSeq (pat : List Char) (l : List Char) : Bool :=
  pat.isPrefixOf l ||
    match l with
    | [] => false
    | _ :: cs => containsSeq pat cs

/-- `"Ses" in filename` (case-sensitive). -/
def hasSes (f : String) : Bool := containsSeq sesCSChars f.data

/-- The module-level loop of `rename_files.py` over the directory listing:
the renames performed, as (old name, new name) pairs. -/
def renameOutcome (files : List String) : List (String × String) :=
  files.filterMap (fun filename =>
    if endsPdf filename && hasSes filename then
      if subSesStr filename ≠ filename then some (filename, subSesStr filename) else none
    else none)

/-! ## Statements taken from the specification's words

These definitions follow the specification, not the code; they exist to be
compared with the code-derived matcher. -/

/-- Case-insensitive equality of character lists, as the spec's
"case-insensitive on the kind suffix and the literal prefix". -/
abbrev ciEq (a b : List Char) : Prop := a.map lcChar = b.map lcChar

/-- Modelled from the spec: the name consists of the literal `Ses` prefix,
a nonempty run of digits, a dot, a nonempty run of digits, a kind equal to
`sum` or `prob`, and the `.pdf` extension — all literals compared
case-insensitively — followed by the given remainder. -/
def specFormWith (f : String) (rest : List Char) : Prop :=
  ∃ pre d1 d2 kd sfx,
    f.data = pre ++ (d1 ++ ('.' :: (d2 ++ (kd ++ (sfx ++ rest))))) ∧
    ciEq pre sesChars ∧
    d1 ≠ [] ∧ d1.all isDig = true ∧
    d2 ≠ [] ∧ d2.all isDig = true ∧
    (ciEq kd sumChars ∨ ciEq kd probChars) ∧
    ciEq sfx pdfChars

/-- Modelled from the spec: a name of the exact form
`Ses<digits>.<digits><kind>.pdf`, with nothing after the extension. -/
def specExactForm (f : String) : Prop := specFormWith f []

/-- A name that begins with an exact-form name (possibly continuing with
arbitrary further characters). -/
def specStartsForm (f : String) : Prop := ∃ rest, specFormWith f rest

/-! ## Helper functions relating the merge loop to per-session values -/

/-- The pages a session contributes before padding: the summary pages minus
the last, then the problem pages minus the last. -/
def sessionPre (sumDoc : Doc) (probDoc : Option Doc) : List Page :=
  copyPages sumDoc ++
    (match probDoc with
     | none => []
     | some d => copyPages d)

/-- The reference dimensions recorded for a session: from the first summary
page if the summary has one, else from the first problem page. -/
def sessionDims (sumDoc : Doc) (probDoc : Option Doc) : Option (Rat × Rat) :=
  match firstDims sumDoc with
  | some d => some d
  | none =>
    match probDoc with
    | none => none
    | some d2 => firstDims d2

/-- Even-page padding of a session's contributed pages. -/
def padSession (pre : List Page) (dims : Option (Rat × Rat)) : List Page :=
  if pre.length % 2 ≠ 0 then pre ++ [mkFiller dims] else pre

/-- Looking up and reading the problem document of a session, when there is
one (mirrors the `if "prob" in pair` branch). -/
def probFetch (readF : String → Except Unit Doc) (pair : Entry) :
    Except Unit (Option Doc) :=
  match alookup pair "prob" with
  | none => Except.ok none
  | some prob_file =>
    match readF prob_file with
    | Except.error e => Except.error e
    | Except.ok d => Except.ok (some d)

/-! ## Character and scanning lemmas -/

theorem lcChar_of_isDig {c : Char} (h : isDig c = true) : lcChar c = c := by
  have h2 : 48 ≤ c.toNat ∧ c.toNat ≤ 57 := of_decide_eq_true h
  unfold lcChar
  rw [if_neg (by omega)]

theorem isDig_eq_false_of_lc {c k : Char} (hk : lcChar c = k)
    (hkd : isDig k = false) : isDig c = false := by
  by_contra hc
  rw [Bool.not_eq_false] at hc
  rw [lcChar_of_isDig hc] at hk
  subst hk
  rw [hc] at hkd
  cases hkd

theorem all_takeWhile (p : Char → Bool) :
    ∀ l : List Char, (l.takeWhile p).all p = true := by
  intro l
  induction l with
  | nil => rfl
  | cons c cs ih =>
    by_cases h : p c
    · simp [List.takeWhile_cons, h, ih]
    · simp [List.takeWhile_cons, h]

theorem span_digits_gen (d t : List Char) (hd : d.all isDig = true)
    (ht : ∀ c0, t.head? = some c0 → isDig c0 = false) :
    (d ++ t).takeWhile isDig = d ∧ (d ++ t).dropWhile isDig = t := by
  induction d with
  | nil =>
    cases t with
    | nil => simp
    | cons c0 t2 =>
      have hc := ht c0 rfl
      simp [List.takeWhile_cons, List.dropWhile_cons, hc]
  | cons a as ih =>
    rw [List.all_cons, Bool.and_eq_true] at hd
    obtain ⟨h1, h2⟩ := hd
    obtain ⟨ih1, ih2⟩ := ih h2
    simp [List.takeWhile_cons, List.dropWhile_cons, h1, ih1, ih2]

theorem isEmpty_false_of_ne_nil {l : List Char} (h : l ≠ []) : l.isEmpty = false := by
  cases l with
  | nil => exact absurd rfl h
  | cons a b => rfl

theorem ne_nil_of_not_isEmpty {l : List Char} (h : ¬ l.isEmpty = true) : l ≠ [] := by
  cases l with
  | nil => simp at h
  | cons a b => simp

theorem stripCI_sound :
    ∀ (pat s : List Char) {m r : List Char},
      stripCI pat s = some (m, r) → s = m ++ r ∧ m.map lcChar = pat.map lcChar
  | [], s, m, r, h => by
    simp only [stripCI] at h
    injection h with h
    injection h with h1 h2
    subst h1
    subst h2
    simp
  | _ :: _, [], m, r, h => by
    simp only [stripCI] at h
    exact Option.noConfusion h
  | p :: ps, c :: cs, m, r, h => by
    simp only [stripCI] at h
    split at h
    · rename_i hc
      split at h
      · rename_i m2 r2 hrec
        injection h with h
        injection h with h1 h2
        subst h1
        subst h2
        obtain ⟨hs, hmap⟩ := stripCI_sound ps cs hrec
        constructor
        · simp [hs]
        · simp only [List.map_cons, List.cons.injEq]
          exact ⟨hc, hmap⟩
      · exact Option.noConfusion h
    · exact Option.noConfusion h

theorem stripCI_complete :
    ∀ (pat m : List Char), m.map lcChar = pat.map lcChar →
      ∀ t : List Char, stripCI pat (m ++ t) = some (m, t)
  | [], m, h, t => by
    have hm : m = [] := by simpa using congrArg List.length h
    subst hm
    simp [stripCI]
  | p :: ps, m, h, t => by
    cases m with
    | nil => simp at h
    | cons c cs =>
      simp only [List.map_cons, List.cons.injEq] at h
      obtain ⟨h1, h2⟩ := h
      simp only [List.cons_append, stripCI, List.append_eq]
      rw [if_pos h1, stripCI_complete ps cs h2 t]

theorem stripCI_none_of_head {p c : Char} (ps cs : List Char)
    (h : lcChar c ≠ lcChar p) : stripCI (p :: ps) (c :: cs) = none := by
  simp only [stripCI]
  rw [if_neg h]

theorem stripExact_sound :
    ∀ (pat s : List Char) {r : List Char},
      stripExact pat s = some r → s = pat ++ r
  | [], s, r, h => by
    simp only [stripExact, Option.some.injEq] at h
    simp [h]
  | _ :: _, [], r, h => by
    simp only [stripExact] at h
    exact Option.noConfusion h
  | p :: ps, c :: cs, r, h => by
    simp only [stripExact] at h
    by_cases hc : c = p
    · rw [if_pos hc] at h
      rw [List.cons_append, hc]
      exact congrArg (List.cons p) (stripExact_sound ps cs h)
    · rw [if_neg hc] at h
      cases h

theorem stripExact_complete :
    ∀ (pat t : List Char), stripExact pat (pat ++ t) = some t
  | [], t => by simp [stripExact]
  | p :: ps, t => by
    simp only [List.cons_append, stripExact, List.append_eq, eq_self_iff_true, if_true]
    exact stripExact_complete ps t


/-! ## Soundness and completeness of the filename matcher -/

/-- Every successful match of the merge-side pattern exhibits the
decomposition of the name described by the specification: a
case-insensitive `Ses`, digits, a dot, digits, a case-insensitive
`sum`/`prob` kind, a case-insensitive `.pdf`, and then whatever remains
(the regex is not anchored at the end). -/
theorem sesParse_sound {l : List Char} {sid kn : String} {rest : List Char}
    (h : sesMatchRest l = some ((sid, kn), rest)) :
    ∃ pre d1 d2 kd sfx,
      l = pre ++ (d1 ++ ('.' :: (d2 ++ (kd ++ (sfx ++ rest))))) ∧
      ciEq pre sesChars ∧
      d1 ≠ [] ∧ d1.all isDig = true ∧
      d2 ≠ [] ∧ d2.all isDig = true ∧
      (ciEq kd sumChars ∨ ciEq kd probChars) ∧
      ciEq sfx pdfChars ∧
      sid = String.mk (d1 ++ '.' :: d2) ∧ kn = String.mk kd := by
  unfold sesMatchRest at h
  split at h
  · exact Option.noConfusion h
  · rename_i pre0 r1 h0
    split at h
    · exact Option.noConfusion h
    · rename_i hd1e
      split at h
      · exact Option.noConfusion h
      · rename_i c r3 hdrop1
        split at h
        · rename_i hcdot
          subst hcdot
          split at h
          · exact Option.noConfusion h
          · rename_i hd2e
            split at h
            · rename_i kd r5 h4
              split at h
              · rename_i sfx0 r6 h5
                injection h with h
                injection h with hpair hrest
                injection hpair with hsid hkn
                subst hrest
                obtain ⟨hl, hpre⟩ := stripCI_sound sesChars l h0
                obtain ⟨h45, hkdm⟩ := stripCI_sound sumChars _ h4
                obtain ⟨h56, hsfxm⟩ := stripCI_sound pdfChars _ h5
                have hr3 : r3 = r3.takeWhile isDig ++ (kd ++ (sfx0 ++ r6)) := by
                  calc r3 = r3.takeWhile isDig ++ r3.dropWhile isDig :=
                        (List.takeWhile_append_dropWhile isDig r3).symm
                    _ = r3.takeWhile isDig ++ (kd ++ (sfx0 ++ r6)) := by
                        rw [h45, h56]
                have hr1 : r1 = r1.takeWhile isDig ++
                    ('.' :: (r3.takeWhile isDig ++ (kd ++ (sfx0 ++ r6)))) := by
                  calc r1 = r1.takeWhile isDig ++ r1.dropWhile isDig :=
                        (List.takeWhile_append_dropWhile isDig r1).symm
                    _ = r1.takeWhile isDig ++ ('.' :: r3) := by rw [hdrop1]
                    _ = _ := congrArg (fun x => r1.takeWhile isDig ++ ('.' :: x)) hr3
                refine ⟨pre0, r1.takeWhile isDig, r3.takeWhile isDig, kd, sfx0,
                  hl.trans (congrArg (pre0 ++ ·) hr1),
                  hpre, ne_nil_of_not_isEmpty ?_, all_takeWhile _ _,
                  ne_nil_of_not_isEmpty ?_, all_takeWhile _ _,
                  Or.inl hkdm, hsfxm, hsid.symm, hkn.symm⟩
                · simpa using hd1e
                · simpa using hd2e
              · exact Option.noConfusion h
            · rename_i h4none
              split at h
              · rename_i kd r5 h4
                split at h
                · rename_i sfx0 r6 h5
                  injection h with h
                  injection h with hpair hrest
                  injection hpair with hsid hkn
                  subst hrest
                  obtain ⟨hl, hpre⟩ := stripCI_sound sesChars l h0
                  obtain ⟨h45, hkdm⟩ := stripCI_sound probChars _ h4
                  obtain ⟨h56, hsfxm⟩ := stripCI_sound pdfChars _ h5
                  have hr3 : r3 = r3.takeWhile isDig ++ (kd ++ (sfx0 ++ r6)) := by
                    calc r3 = r3.takeWhile isDig ++ r3.dropWhile isDig :=
                          (List.takeWhile_append_dropWhile isDig r3).symm
                      _ = r3.takeWhile isDig ++ (kd ++ (sfx0 ++ r6)) := by
                          rw [h45, h56]
                  have hr1 : r1 = r1.takeWhile isDig ++
                      ('.' :: (r3.takeWhile isDig ++ (kd ++ (sfx0 ++ r6)))) := by
                    calc r1 = r1.takeWhile isDig ++ r1.dropWhile isDig :=
                          (List.takeWhile_append_dropWhile isDig r1).symm
                      _ = r1.takeWhile isDig ++ ('.' :: r3) := by rw [hdrop1]
                      _ = _ := congrArg (fun x => r1.takeWhile isDig ++ ('.' :: x)) hr3
                  refine ⟨pre0, r1.takeWhile isDig, r3.takeWhile isDig, kd, sfx0,
                    hl.trans (congrArg (pre0 ++ ·) hr1),
                    hpre, ne_nil_of_not_isEmpty ?_, all_takeWhile _ _,
                    ne_nil_of_not_isEmpty ?_, all_takeWhile _ _,
                    Or.inr hkdm, hsfxm, hsid.symm, hkn.symm⟩
                  · simpa using hd1e
                  · simpa using hd2e
                · exact Option.noConfusion h
              · exact Option.noConfusion h
        · exact Option.noConfusion h

/-- Conversely, every name with the spec's decomposition (followed by an
arbitrary remainder) is matched, with the expected groups and remainder. -/
theorem sesParse_complete {pre d1 d2 kd sfx : List Char} (rest : List Char)
    (hpre : ciEq pre sesChars) (hd1 : d1 ≠ []) (hd1a : d1.all isDig = true)
    (hd2 : d2 ≠ []) (hd2a : d2.all isDig = true)
    (hkd : ciEq kd sumChars ∨ ciEq kd probChars)
    (hsfx : ciEq sfx pdfChars) :
    sesMatchRest (pre ++ (d1 ++ ('.' :: (d2 ++ (kd ++ (sfx ++ rest))))))
      = some ((String.mk (d1 ++ '.' :: d2), String.mk kd), rest) := by
  obtain ⟨k0, kt, hkde, hk0sp⟩ :
      ∃ k0 kt, kd = k0 :: kt ∧ (lcChar k0 = 's' ∨ lcChar k0 = 'p') := by
    rcases hkd with hs | hp
    · cases kd with
      | nil => simp [ciEq, sumChars] at hs
      | cons a b =>
        simp only [ciEq, sumChars, List.map_cons, List.map_nil, List.cons.injEq] at hs
        refine ⟨a, b, rfl, Or.inl ?_⟩
        rw [hs.1]
        decide
    · cases kd with
      | nil => simp [ciEq, probChars] at hp
      | cons a b =>
        simp only [ciEq, probChars, List.map_cons, List.map_nil, List.cons.injEq] at hp
        refine ⟨a, b, rfl, Or.inr ?_⟩
        rw [hp.1]
        decide
  have hk0d : isDig k0 = false := by
    rcases hk0sp with hx | hx
    · exact isDig_eq_false_of_lc hx (by decide)
    · exact isDig_eq_false_of_lc hx (by decide)
  have hhead : ∀ c0, (kd ++ (sfx ++ rest)).head? = some c0 → isDig c0 = false := by
    intro c0 hc0
    rw [hkde] at hc0
    simp only [List.cons_append, List.head?_cons, Option.some.injEq] at hc0
    rw [← hc0]
    exact hk0d
  obtain ⟨ht2, hdr2⟩ := span_digits_gen d2 (kd ++ (sfx ++ rest)) hd2a hhead
  have hhead1 : ∀ c0, ('.' :: (d2 ++ (kd ++ (sfx ++ rest)))).head? = some c0 →
      isDig c0 = false := by
    intro c0 hc0
    simp only [List.head?_cons, Option.some.injEq] at hc0
    rw [← hc0]
    decide
  obtain ⟨ht1, hdr1⟩ :=
    span_digits_gen d1 ('.' :: (d2 ++ (kd ++ (sfx ++ rest)))) hd1a hhead1
  have hne1 : ¬ (d1.isEmpty = true) := by
    rw [isEmpty_false_of_ne_nil hd1]
    simp
  have hne2 : ¬ (d2.isEmpty = true) := by
    rw [isEmpty_false_of_ne_nil hd2]
    simp
  unfold sesMatchRest
  rw [stripCI_complete sesChars pre hpre (d1 ++ ('.' :: (d2 ++ (kd ++ (sfx ++ rest)))))]
  dsimp only
  rw [ht1, hdr1, if_neg hne1]
  dsimp only
  rw [if_pos rfl, ht2, hdr2, if_neg hne2]
  rcases hkd with hs | hp
  · rw [stripCI_complete sumChars kd hs (sfx ++ rest)]
    dsimp only
    rw [stripCI_complete pdfChars sfx hsfx rest]
  · have hk0p : lcChar k0 = 'p' := by
      rcases hk0sp with hx | hx
      · exfalso
        cases kt with
        | nil =>
          rw [hkde] at hp
          simp [ciEq, probChars] at hp
        | cons a b =>
          rw [hkde] at hp
          simp only [ciEq, probChars, List.map_cons, List.cons.injEq] at hp
          rw [hp.1] at hx
          exact absurd hx (by decide)
      · exact hx
    have hsumfail : stripCI sumChars (kd ++ (sfx ++ rest)) = none := by
      rw [hkde, List.cons_append]
      have hne : lcChar k0 ≠ lcChar 's' := by
        rw [hk0p]
        decide
      have hs3 : sumChars = 's' :: ['u', 'm'] := rfl
      rw [hs3]
      exact stripCI_none_of_head ['u', 'm'] (kt ++ (sfx ++ rest)) hne
    rw [hsumfail]
    dsimp only
    rw [stripCI_complete probChars kd hp (sfx ++ rest)]
    dsimp only
    rw [stripCI_complete pdfChars sfx hsfx rest]

/-! ## Structure of the per-session merge step -/

theorem sessionPre_none (d : Doc) : sessionPre d none = copyPages d := by
  simp [sessionPre]

theorem sessionPre_some (d d2 : Doc) :
    sessionPre d (some d2) = copyPages d ++ copyPages d2 := by
  simp [sessionPre]

/-- A session that has no summary path is skipped: the output is returned
untouched, whatever else the entry holds. -/
theorem processSession_skip (readF : String → Except Unit Doc) (out : List Page)
    (pair : Entry) (h : alookup pair "sum" = none) :
    processSession readF out pair = Except.ok out := by
  unfold processSession
  rw [h]

theorem append_ite {α : Type} (cond : Prop) [Decidable cond] (out a b : List α) :
    (if cond then out ++ a else out ++ b) = out ++ (if cond then a else b) := by
  split <;> rfl

/-- An unreadable summary document aborts the session processing. -/
theorem processSession_sum_err (readF : String → Except Unit Doc) (out : List Page)
    (pair : Entry) (sp : String) (e : Unit)
    (hs : alookup pair "sum" = some sp) (hd : readF sp = Except.error e) :
    processSession readF out pair = Except.error e := by
  unfold processSession
  rw [hs]
  dsimp only
  rw [hd]

/-- An unreadable problem document (of a session whose summary was read)
aborts the session processing. -/
theorem processSession_prob_err (readF : String → Except Unit Doc) (out : List Page)
    (pair : Entry) (sp pp : String) (d : Doc) (e : Unit)
    (hs : alookup pair "sum" = some sp) (hd : readF sp = Except.ok d)
    (hq : alookup pair "prob" = some pp) (hr : readF pp = Except.error e) :
    processSession readF out pair = Except.error e := by
  unfold processSession
  rw [hs]
  dsimp only
  rw [hd]
  dsimp only
  rw [hq]
  dsimp only
  rw [hr]

/-- The loop body in terms of the per-session helpers: the appended pages
are the session's own pages (summary then problem, each minus its last
page) padded to an even count, independently of the pages already in the
output. -/
theorem processSession_eq (readF : String → Except Unit Doc) (out : List Page)
    (pair : Entry) (sp : String) (d : Doc) (pd : Option Doc)
    (hs : alookup pair "sum" = some sp) (hd : readF sp = Except.ok d)
    (hp : probFetch readF pair = Except.ok pd) :
    processSession readF out pair
      = Except.ok (out ++ padSession (sessionPre d pd) (sessionDims d pd)) := by
  unfold probFetch at hp
  cases hq : alookup pair "prob" with
  | none =>
    rw [hq] at hp
    injection hp with hp
    subst hp
    cases hfd : firstDims d with
    | none =>
      simp [processSession, hs, hd, hq, hfd, finishSession, padSession,
        sessionPre, sessionDims, Nat.add_sub_cancel_left, List.append_assoc,
        append_ite]
    | some dd =>
      simp [processSession, hs, hd, hq, hfd, finishSession, padSession,
        sessionPre, sessionDims, Nat.add_sub_cancel_left, List.append_assoc,
        append_ite]
  | some pp =>
    rw [hq] at hp
    dsimp only at hp
    cases hr : readF pp with
    | error e =>
      rw [hr] at hp
      exact Except.noConfusion hp
    | ok d2 =>
      rw [hr] at hp
      injection hp with hp
      subst hp
      cases hfd : firstDims d with
      | none =>
        simp [processSession, hs, hd, hq, hr, hfd, finishSession, padSession,
          sessionPre, sessionDims, Nat.add_sub_cancel_left, List.append_assoc,
          append_ite]
      | some dd =>
        simp [processSession, hs, hd, hq, hr, hfd, finishSession, padSession,
          sessionPre, sessionDims, Nat.add_sub_cancel_left, List.append_assoc,
          append_ite]

/-! ## Padding facts -/

theorem padSession_length_even (pre : List Page) (dims : Option (Rat × Rat)) :
    (padSession pre dims).length % 2 = 0 := by
  unfold padSession
  split
  · rename_i h
    simp only [List.length_append, List.length_cons, List.length_nil]
    omega
  · rename_i h
    omega

theorem padSession_odd (pre : List Page) (dims : Option (Rat × Rat))
    (h : pre.length % 2 = 1) :
    padSession pre dims = pre ++ [mkFiller dims] := by
  unfold padSession
  rw [if_pos (by omega)]

theorem padSession_even (pre : List Page) (dims : Option (Rat × Rat))
    (h : pre.length % 2 = 0) :
    padSession pre dims = pre := by
  unfold padSession
  rw [if_neg (by omega)]

/-! ## The session sort -/

theorem keyLe_total : ∀ a b : List Nat, keyLe a b = true ∨ keyLe b a = true
  | [], _ => Or.inl rfl
  | _ :: _, [] => Or.inr rfl
  | a :: as, b :: bs => by
    by_cases h1 : a < b
    · left
      simp [keyLe, h1]
    · by_cases h2 : b < a
      · right
        simp [keyLe, h1, h2]
      · rcases keyLe_total as bs with h | h
        · left
          simp [keyLe, h1, h2, h]
        · right
          simp [keyLe, h1, h2, h]

theorem keyLe_trans : ∀ a b c : List Nat,
    keyLe a b = true → keyLe b c = true → keyLe a c = true
  | [], _, _, _, _ => rfl
  | _ :: _, [], _, h1, _ => by cases h1
  | _ :: _, _ :: _, [], _, h2 => by cases h2
  | a :: as, b :: bs, c :: cs, h1, h2 => by
    by_cases hab : a < b
    · by_cases hbc : b < c
      · have hac : a < c := Nat.lt_trans hab hbc
        simp [keyLe, hac]
      · by_cases hcb : c < b
        · simp [keyLe, hbc, hcb] at h2
        · have hbceq : b = c := Nat.le_antisymm (Nat.le_of_not_lt hcb) (Nat.le_of_not_lt hbc)
          subst hbceq
          simp [keyLe, hab]
    · by_cases hba : b < a
      · simp [keyLe, hab, hba] at h1
      · have habeq : a = b := Nat.le_antisymm (Nat.le_of_not_lt hba) (Nat.le_of_not_lt hab)
        subst habeq
        by_cases hac : a < c
        · simp [keyLe, hac]
        · by_cases hca : c < a
          · simp [keyLe, hac, hca] at h2
          · have haceq : a = c := Nat.le_antisymm (Nat.le_of_not_lt hca) (Nat.le_of_not_lt hac)
            subst haceq
            simp only [keyLe, hac, if_neg (lt_irrefl a)] at h1 h2 ⊢
            exact keyLe_trans as bs cs h1 h2

theorem sesLe_total (x y : String × Entry) : sesLe x y = true ∨ sesLe y x = true :=
  keyLe_total _ _

theorem sesLe_trans {x y z : String × Entry}
    (h1 : sesLe x y = true) (h2 : sesLe y z = true) : sesLe x z = true :=
  keyLe_trans _ _ _ h1 h2

theorem insSes_perm (x : String × Entry) :
    ∀ l : Sessions, (insSes x l).Perm (x :: l)
  | [] => List.Perm.refl _
  | y :: ys => by
    unfold insSes
    split
    · exact List.Perm.refl _
    · exact ((insSes_perm x ys).cons y).trans (List.Perm.swap x y ys)

theorem sortSessions_perm : ∀ l : Sessions, (sortSessions l).Perm l
  | [] => List.Perm.refl _
  | x :: xs => by
    unfold sortSessions
    exact (insSes_perm x (sortSessions xs)).trans ((sortSessions_perm xs).cons x)

theorem insSes_pairwise (x : String × Entry) :
    ∀ {l : Sessions}, l.Pairwise (fun a b => sesLe a b = true) →
      (insSes x l).Pairwise (fun a b => sesLe a b = true)
  | [], _ => by simp [insSes]
  | y :: ys, hp => by
    unfold insSes
    split
    · rename_i hxy
      rw [List.pairwise_cons] at hp
      obtain ⟨hy, hys⟩ := hp
      rw [List.pairwise_cons]
      constructor
      · intro b hb
        rcases List.mem_cons.mp hb with rfl | hb2
        · exact hxy
        · exact sesLe_trans hxy (hy b hb2)
      · rw [List.pairwise_cons]
        exact ⟨hy, hys⟩
    · rename_i hxy
      have hyx : sesLe y x = true := (sesLe_total x y).resolve_left hxy
      rw [List.pairwise_cons] at hp
      obtain ⟨hy, hys⟩ := hp
      rw [List.pairwise_cons]
      constructor
      · intro b hb
        have hb2 : b ∈ x :: ys := (insSes_perm x ys).mem_iff.mp hb
        rcases List.mem_cons.mp hb2 with rfl | hb3
        · exact hyx
        · exact hy b hb3
      · exact insSes_pairwise x hys

theorem sortSessions_pairwise :
    ∀ l : Sessions, (sortSessions l).Pairwise (fun a b => sesLe a b = true)
  | [] => List.Pairwise.nil
  | x :: xs => by
    unfold sortSessions
    exact insSes_pairwise x (sortSessions_pairwise xs)

/-! ## Error propagation through the merge fold -/

theorem except_bind_ok {α β : Type} (a : α) (f : α → Except Unit β) :
    (Except.ok a >>= f) = f a := rfl

theorem except_bind_err {α β : Type} (f : α → Except Unit β) :
    ((Except.error () : Except Unit α) >>= f) = Except.error () := rfl

/-- If the sessions before `x` fold to `out` and processing `x` from `out`
fails, the whole fold fails. -/
theorem foldlM_sessions_err (readF : String → Except Unit Doc) :
    ∀ (l1 : Sessions) (x : String × Entry) (l2 : Sessions) (init out : List Page),
      l1.foldlM (fun o p => processSession readF o p.2) init = Except.ok out →
      processSession readF out x.2 = Except.error () →
      (l1 ++ x :: l2).foldlM (fun o p => processSession readF o p.2) init
        = Except.error ()
  | [], x, l2, init, out, h1, h2 => by
    simp only [List.foldlM_nil] at h1
    injection h1 with h1
    subst h1
    rw [List.nil_append, List.foldlM_cons, h2, except_bind_err]
  | y :: l1, x, l2, init, out, h1, h2 => by
    rw [List.foldlM_cons] at h1
    rw [List.cons_append, List.foldlM_cons]
    cases hy : processSession readF init y.2 with
    | error e =>
      rw [hy] at h1
      cases e
      rw [except_bind_err] at h1
      exact Except.noConfusion h1
    | ok mid =>
      rw [hy] at h1
      rw [except_bind_ok] at h1
      rw [except_bind_ok]
      exact foldlM_sessions_err readF l1 x l2 mid out h1 h2

/-! ## The rename substitution -/

/-- A successful case-sensitive pattern match at the head of `l` consumes a
nonempty chunk: `l` is the match followed by the rest. -/
theorem sesCS_sound {l m r : List Char} (h : sesCS l = some (m, r)) :
    l = m ++ r ∧ m ≠ [] := by
  unfold sesCS at h
  split at h
  · exact Option.noConfusion h
  · rename_i r1 h0
    split at h
    · exact Option.noConfusion h
    · rename_i hd1e
      split at h
      · exact Option.noConfusion h
      · rename_i c r3 hdrop1
        split at h
        · rename_i hcdot
          subst hcdot
          split at h
          · exact Option.noConfusion h
          · rename_i hd2e
            split at h
            · rename_i r5 h4
              split at h
              · rename_i r6 h5
                injection h with h
                injection h with hm hr
                subst hr
                have hr3 : r3 = r3.takeWhile isDig ++ (sumChars ++ (pdfChars ++ r6)) := by
                  calc r3 = r3.takeWhile isDig ++ r3.dropWhile isDig :=
                        (List.takeWhile_append_dropWhile isDig r3).symm
                    _ = _ := by rw [stripExact_sound sumChars _ h4,
                          stripExact_sound pdfChars _ h5]
                have hr1 : r1 = r1.takeWhile isDig ++
                    ('.' :: (r3.takeWhile isDig ++ (sumChars ++ (pdfChars ++ r6)))) := by
                  calc r1 = r1.takeWhile isDig ++ r1.dropWhile isDig :=
                        (List.takeWhile_append_dropWhile isDig r1).symm
                    _ = r1.takeWhile isDig ++ ('.' :: r3) := by rw [hdrop1]
                    _ = _ := congrArg (fun x => r1.takeWhile isDig ++ ('.' :: x)) hr3
                constructor
                · rw [stripExact_sound sesCSChars l h0, hr1, ← hm]
                  simp [List.append_assoc]
                · rw [← hm]
                  simp [sesCSChars]
              · exact Option.noConfusion h
            · rename_i h4none
              split at h
              · rename_i r5 h4
                split at h
                · rename_i r6 h5
                  injection h with h
                  injection h with hm hr
                  subst hr
                  have hr3 : r3 = r3.takeWhile isDig ++ (probChars ++ (pdfChars ++ r6)) := by
                    calc r3 = r3.takeWhile isDig ++ r3.dropWhile isDig :=
                          (List.takeWhile_append_dropWhile isDig r3).symm
                      _ = _ := by rw [stripExact_sound probChars _ h4,
                            stripExact_sound pdfChars _ h5]
                  have hr1 : r1 = r1.takeWhile isDig ++
                      ('.' :: (r3.takeWhile isDig ++ (probChars ++ (pdfChars ++ r6)))) := by
                    calc r1 = r1.takeWhile isDig ++ r1.dropWhile isDig :=
                          (List.takeWhile_append_dropWhile isDig r1).symm
                      _ = r1.takeWhile isDig ++ ('.' :: r3) := by rw [hdrop1]
                      _ = _ := congrArg (fun x => r1.takeWhile isDig ++ ('.' :: x)) hr3
                  constructor
                  · rw [stripExact_sound sesCSChars l h0, hr1, ← hm]
                    simp [List.append_assoc]
                  · rw [← hm]
                    simp [sesCSChars]
                · exact Option.noConfusion h
              · exact Option.noConfusion h
        · exact Option.noConfusion h

/-- `findMatchIdx` finds a genuine occurrence, and the earliest one: no
position strictly before it matches. -/
theorem findMatchIdx_sound :
    ∀ {l pre m r : List Char}, findMatchIdx l = some (pre, m, r) →
      l = pre ++ (m ++ r) ∧ m ≠ [] ∧ sesCS (m ++ r) = some (m, r) ∧
        ∀ i, i < pre.length → sesCS (l.drop i) = none
  | [], pre, m, r, h => by simp [findMatchIdx] at h
  | c :: cs, pre, m, r, h => by
    unfold findMatchIdx at h
    cases hcs : sesCS (c :: cs) with
    | some mr =>
      obtain ⟨m0, r0⟩ := mr
      rw [hcs] at h
      injection h with h
      injection h with hpre h
      injection h with hm hr
      subst hpre
      subst hm
      subst hr
      obtain ⟨hl, hm0⟩ := sesCS_sound hcs
      refine ⟨by simpa using hl, hm0, ?_, by intro i hi; cases hi⟩
      rw [← hl]
      exact hcs
    | none =>
      rw [hcs] at h
      cases hf : findMatchIdx cs with
      | none =>
        rw [hf] at h
        exact Option.noConfusion h
      | some pmr =>
        obtain ⟨pre2, m2, r2⟩ := pmr
        rw [hf] at h
        simp only [Option.map_some] at h
        injection h with h
        injection h with hpre h
        injection h with hm hr
        subst hpre
        subst hm
        subst hr
        obtain ⟨hl2, hm2, hmm2, hmin2⟩ := findMatchIdx_sound hf
        refine ⟨by simp [hl2], hm2, hmm2, ?_⟩
        intro i hi
        cases i with
        | zero => exact hcs
        | succ j =>
          simp only [List.drop_succ_cons]
          exact hmin2 j (by simpa using hi)

theorem findMatchIdx_rest_lt {l pre m r : List Char}
    (h : findMatchIdx l = some (pre, m, r)) : r.length < l.length := by
  obtain ⟨hl, hm, -, -⟩ := findMatchIdx_sound h
  rw [hl]
  cases m with
  | nil => exact absurd rfl hm
  | cons a b =>
    simp only [List.length_append, List.length_cons]
    omega

theorem subSesF_congr :
    ∀ (f1 f2 : Nat) (l : List Char), l.length ≤ f1 → l.length ≤ f2 →
      subSesF f1 l = subSesF f2 l
  | 0, f2, l, h1, h2 => by
    have hl : l = [] := List.length_eq_zero.mp (Nat.le_zero.mp h1)
    subst hl
    cases f2 with
    | zero => rfl
    | succ f2 => simp [subSesF, findMatchIdx]
  | f1 + 1, 0, l, h1, h2 => by
    have hl : l = [] := List.length_eq_zero.mp (Nat.le_zero.mp h2)
    subst hl
    simp [subSesF, findMatchIdx]
  | f1 + 1, f2 + 1, l, h1, h2 => by
    simp only [subSesF]
    cases hf : findMatchIdx l with
    | none => rfl
    | some pmr =>
      obtain ⟨pre, m, r⟩ := pmr
      have hlt := findMatchIdx_rest_lt hf
      dsimp only
      rw [subSesF_congr f1 f2 r (by omega) (by omega)]

theorem subSes_none {l : List Char} (h : findMatchIdx l = none) : subSes l = l := by
  unfold subSes
  cases l with
  | nil => rfl
  | cons c cs =>
    rw [List.length_cons]
    simp only [subSesF, h]

/-- One substitution step: the earliest occurrence keeps only the part of
the preceding text up to its last newline, emits the matched group, and
the process continues after the match. -/
theorem subSes_step {l pre m r : List Char} (h : findMatchIdx l = some (pre, m, r)) :
    subSes l = keepPart pre ++ m ++ subSes r := by
  cases l with
  | nil => simp [findMatchIdx] at h
  | cons c cs =>
    have hlt := findMatchIdx_rest_lt h
    rw [List.length_cons] at hlt
    unfold subSes
    rw [List.length_cons]
    simp only [subSesF, h]
    rw [subSesF_congr cs.length r.length r (by omega) (Nat.le_refl _)]

theorem isEmpty_true_iff {α : Type} {l : List α} : l.isEmpty = true ↔ l = [] := by
  cases l <;> simp

/-! ## Concrete fixtures used by the witnesses and counterexamples -/

def pg1 : Page := ⟨612, 792, "sum-1"⟩
def pg2 : Page := ⟨612, 792, "sum-2"⟩
def pg3 : Page := ⟨612, 792, "sum-3"⟩
def pg4 : Page := ⟨612, 792, "sum-4"⟩
def qg1 : Page := ⟨612, 792, "prob-1"⟩
def qg2 : Page := ⟨612, 792, "prob-2"⟩
def qg3 : Page := ⟨612, 792, "prob-3"⟩
def dotPage : Page := create_dot_page 612 792

/-- A reader with one two-page summary document. -/
def readFC1 : String → Except Unit Doc :=
  fun p => if p = "s" then Except.ok [pg1, pg2] else Except.error ()

def pairC1 : Entry := [("sum", "s")]

/-- An entry with only a problem document. -/
def pairC2 : Entry := [("prob", "problemsets/Ses1.1prob.pdf")]

/-- The end-to-end scenario: `Ses1.1sum.pdf` with 4 pages and
`Ses1.1prob.pdf` with 3 pages. -/
def fsC4 : FS :=
  { dirs := [("lecturenotes", ["Ses1.1sum.pdf"]), ("problemsets", ["Ses1.1prob.pdf"])]
    readPdf := fun p =>
      if p = "lecturenotes/Ses1.1sum.pdf" then Except.ok [pg1, pg2, pg3, pg4]
      else if p = "problemsets/Ses1.1prob.pdf" then Except.ok [qg1, qg2, qg3]
      else Except.error () }

/-- A filesystem whose one summary file is unreadable. -/
def fsErr : FS :=
  { dirs := [("lecturenotes", ["Ses1.1sum.pdf"])]
    readPdf := fun _ => Except.error () }

/-- A filesystem with no matching files at all. -/
def fsEmpty : FS := { dirs := [], readPdf := fun _ => Except.error () }

/-- A filesystem with a readable summary for session 2.1 and an unreadable
problem file for session 1.1, which has no summary. -/
def fsC7 : FS :=
  { dirs := [("lecturenotes", ["Ses2.1sum.pdf"]), ("problemsets", ["Ses1.1prob.pdf"])]
    readPdf := fun p =>
      if p = "lecturenotes/Ses2.1sum.pdf" then Except.ok [pg1, pg2]
      else Except.error () }

/-- A reader with a one-page summary and a three-page problem document. -/
def readFC10 : String → Except Unit Doc :=
  fun p =>
    if p = "lecturenotes/Ses1.1sum.pdf" then Except.ok [pg1]
    else if p = "problemsets/Ses1.1prob.pdf" then Except.ok [qg1, qg2, qg3]
    else Except.error ()

def pairC10 : Entry :=
  [("sum", "lecturenotes/Ses1.1sum.pdf"), ("prob", "problemsets/Ses1.1prob.pdf")]

/-! ## The claims -/

/-- C1: for every session included in the output (summary present, all
reads succeeding), the pages appended for that session alone are the
summary pages plus problem pages (each minus one) padded as follows: if
that count is odd, exactly one filler page is appended immediately after
the session's content and the total becomes even; if it is even, no filler
page is appended.  The appended block does not depend on the pages already
accumulated from earlier sessions (the count is per session, not
cumulative). -/
theorem claim_C1 (readF : String → Except Unit Doc) (pair : Entry) (sp : String)
    (d : Doc) (pd : Option Doc)
    (hs : alookup pair "sum" = some sp) (hd : readF sp = Except.ok d)
    (hp : probFetch readF pair = Except.ok pd) :
    (∀ out, processSession readF out pair
        = Except.ok (out ++ padSession (sessionPre d pd) (sessionDims d pd)))
    ∧ (padSession (sessionPre d pd) (sessionDims d pd)).length % 2 = 0
    ∧ ((sessionPre d pd).length % 2 = 1 →
        padSession (sessionPre d pd) (sessionDims d pd)
          = sessionPre d pd ++ [mkFiller (sessionDims d pd)])
    ∧ ((sessionPre d pd).length % 2 = 0 →
        padSession (sessionPre d pd) (sessionDims d pd) = sessionPre d pd) :=
  ⟨fun out => processSession_eq readF out pair sp d pd hs hd hp,
   padSession_length_even _ _,
   padSession_odd _ _,
   padSession_even _ _⟩

theorem claim_C1_witness :
    processSession readFC1 [qg1] pairC1 = Except.ok [qg1, pg1, dotPage]
    ∧ (padSession (sessionPre [pg1, pg2] none) (sessionDims [pg1, pg2] none)).length % 2 = 0
    ∧ padSession (sessionPre [pg1, pg2] none) (sessionDims [pg1, pg2] none)
        = sessionPre [pg1, pg2] none ++ [mkFiller (sessionDims [pg1, pg2] none)] := by
  have h := claim_C1 readFC1 pairC1 "s" [pg1, pg2] none rfl rfl rfl
  refine ⟨?_, h.2.1, h.2.2.1 (by decide)⟩
  rw [h.1 [qg1]]
  rfl

/-- C2: a session whose entry has no summary-kind path contributes no pages
to the output, even when a problem-kind path is present: the loop body
returns the accumulated output untouched, and a run over such a session
alone produces no pages. -/
theorem claim_C2 (readF : String → Except Unit Doc) (out : List Page) (pair : Entry)
    (h : alookup pair "sum" = none) :
    processSession readF out pair = Except.ok out
    ∧ ∀ ses, mergeSessions readF [(ses, pair)] = Except.ok [] := by
  constructor
  · exact processSession_skip readF out pair h
  · intro ses
    unfold mergeSessions
    have hsrt : sortSessions [(ses, pair)] = [(ses, pair)] := rfl
    rw [hsrt, List.foldlM_cons, processSession_skip readF [] pair h, except_bind_ok,
      List.foldlM_nil]
    rfl

theorem claim_C2_witness :
    processSession (fun _ => Except.ok [qg1]) [pg1] pairC2 = Except.ok [pg1]
    ∧ mergeSessions (fun _ => Except.ok [qg1]) [("1.1", pairC2)] = Except.ok [] := by
  have h := claim_C2 (fun _ => Except.ok [qg1]) [pg1] pairC2 rfl
  exact ⟨h.1, h.2 "1.1"⟩

/-- C4: with `Ses1.1sum.pdf` having 4 pages and `Ses1.1prob.pdf` having 3,
the merged output holds exactly 6 pages for the session, in order: the
first 3 summary pages, the first 2 problem pages, then one generated filler
page (since (4-1)+(3-1)=5 is odd), sized from the summary's first page. -/
theorem claim_C4 :
    script fsC4 = Except.ok [pg1, pg2, pg3, qg1, qg2, create_dot_page 612 792]
    ∧ [pg1, pg2, pg3, qg1, qg2, create_dot_page 612 792].length = 6 :=
  ⟨rfl, rfl⟩

/-- C9: whenever the per-session appended count is odd (so a filler page is
appended), the reference dimensions were recorded from the first page of
the summary document or, failing that, of the problem document; the filler
is sized to those dimensions, so the A4 fallback branch is never taken. -/
theorem claim_C9 (d : Doc) (pd : Option Doc)
    (h : (sessionPre d pd).length % 2 = 1) :
    ∃ w hgt, sessionDims d pd = some (w, hgt)
      ∧ padSession (sessionPre d pd) (sessionDims d pd)
          = sessionPre d pd ++ [create_dot_page w hgt]
      ∧ ((∃ p rest2, d = p :: rest2 ∧ w = p.width ∧ hgt = p.height)
         ∨ (d = [] ∧ ∃ pdoc p rest2, pd = some pdoc ∧ pdoc = p :: rest2
              ∧ w = p.width ∧ hgt = p.height)) := by
  cases d with
  | cons p rest2 =>
    have hdim : sessionDims (p :: rest2) pd = some (p.width, p.height) := by
      simp [sessionDims, firstDims]
    refine ⟨p.width, p.height, hdim, ?_, Or.inl ⟨p, rest2, rfl, rfl, rfl⟩⟩
    rw [padSession_odd _ _ h, hdim]
    rfl
  | nil =>
    cases pd with
    | none => simp [sessionPre, copyPages] at h
    | some pdoc =>
      cases pdoc with
      | nil => simp [sessionPre, copyPages] at h
      | cons p rest2 =>
        have hdim : sessionDims [] (some (p :: rest2)) = some (p.width, p.height) := by
          simp [sessionDims, firstDims]
        refine ⟨p.width, p.height, hdim, ?_,
          Or.inr ⟨rfl, p :: rest2, p, rest2, rfl, rfl, rfl, rfl⟩⟩
        rw [padSession_odd _ _ h, hdim]
        rfl

theorem claim_C9_witness :
    ∃ w hgt, sessionDims [pg1, pg2] none = some (w, hgt)
      ∧ padSession (sessionPre [pg1, pg2] none) (sessionDims [pg1, pg2] none)
          = sessionPre [pg1, pg2] none ++ [create_dot_page w hgt]
      ∧ ((∃ p rest2, [pg1, pg2] = p :: rest2 ∧ w = p.width ∧ hgt = p.height)
         ∨ ([pg1, pg2] = ([] : Doc) ∧ ∃ pdoc p rest2, (none : Option Doc) = some pdoc
              ∧ pdoc = p :: rest2 ∧ w = p.width ∧ hgt = p.height)) :=
  claim_C9 [pg1, pg2] none (by decide)

/-- C10: a session whose summary document exists but has zero or one pages
is still included: it contributes zero summary pages (the drop-last rule
truncates at zero), and the session's problem pages (minus the last) plus
padding are still appended. -/
theorem claim_C10 (readF : String → Except Unit Doc) (pair : Entry) (sp : String)
    (d : Doc) (pd : Option Doc)
    (hs : alookup pair "sum" = some sp) (hd : readF sp = Except.ok d)
    (hlen : d.length ≤ 1) (hp : probFetch readF pair = Except.ok pd) :
    copyPages d = []
    ∧ (∀ out, processSession readF out pair
        = Except.ok (out ++ padSession (sessionPre d pd) (sessionDims d pd)))
    ∧ (pd = none → sessionPre d pd = [])
    ∧ (∀ pdoc, pd = some pdoc → sessionPre d pd = copyPages pdoc) := by
  have hcp : copyPages d = [] := by
    unfold copyPages
    have h0 : d.length - 1 = 0 := by omega
    rw [h0]
    exact List.take_zero d
  refine ⟨hcp, fun out => processSession_eq readF out pair sp d pd hs hd hp, ?_, ?_⟩
  · intro hpd
    subst hpd
    rw [sessionPre_none, hcp]
  · intro pdoc hpd
    subst hpd
    rw [sessionPre_some, hcp, List.nil_append]

theorem claim_C10_witness :
    copyPages [pg1] = []
    ∧ processSession readFC10 [] pairC10 = Except.ok [qg1, qg2] := by
  have h := claim_C10 readFC10 pairC10 "lecturenotes/Ses1.1sum.pdf" [pg1]
    (some [qg1, qg2, qg3]) rfl rfl (by decide) rfl
  refine ⟨h.1, ?_⟩
  rw [h.2.1 []]
  rfl

/-- C3: the merge loop visits sessions in ascending numeric order of their
dotted ids: sorting keeps exactly the collected sessions (a permutation),
successive sort keys compare as lists of integers (primary component, then
secondary), and in particular no session keyed "1.2" can appear after a
session keyed "1.10". -/
theorem claim_C3 (m : Sessions) :
    (sortSessions m).Perm m
    ∧ (sortSessions m).Pairwise
        (fun a b => keyLe (sortKey a.1) (sortKey b.1) = true)
    ∧ (∀ l1 x l2, sortSessions m = l1 ++ x :: l2 → x.1 = "1.10" →
        ∀ y ∈ l2, y.1 = "1.2" → False) := by
  refine ⟨sortSessions_perm m, sortSessions_pairwise m, ?_⟩
  intro l1 x l2 hsplit hx y hy hyname
  have hp := sortSessions_pairwise m
  rw [hsplit] at hp
  have h2 := (List.pairwise_append.mp hp).2.1
  rw [List.pairwise_cons] at h2
  have hxy := h2.1 y hy
  unfold sesLe at hxy
  rw [hx, hyname] at hxy
  exact absurd hxy (by decide)

theorem claim_C3_witness :
    (sortSessions [("1.10", ([] : Entry)), ("1.2", [])]).Perm
      [("1.10", ([] : Entry)), ("1.2", [])]
    ∧ (sortSessions [("1.10", ([] : Entry)), ("1.2", [])]).Pairwise
        (fun a b => keyLe (sortKey a.1) (sortKey b.1) = true)
    ∧ (∀ y ∈ ([] : Sessions), y.1 = "1.2" → False) := by
  have h := claim_C3 [("1.10", ([] : Entry)), ("1.2", [])]
  exact ⟨h.1, h.2.1, h.2.2 [("1.2", [])] ("1.10", []) [] (by decide) rfl⟩

/-- C5 counterexample: the regex is applied with `re.match`, which anchors
at the start of the name but not at its end, so a name that merely begins
with the exact form — here with the trailing junk "extra" after ".pdf" —
is still recognized, although it is not of the exact form; this refutes
"for every other name it yields no match". -/
theorem claim_C5_counterexample :
    sesMatch "Ses1.1sum.pdfextra" = some ("1.1", "sum")
    ∧ ¬ specExactForm "Ses1.1sum.pdfextra" := by
  constructor
  · rfl
  · intro hform
    unfold specExactForm specFormWith at hform
    obtain ⟨pre, d1, d2, kd, sfx, heq, hpre, hd1, hd1a, hd2, hd2a, hkd, hsfx⟩ := hform
    have h := sesParse_complete [] hpre hd1 hd1a hd2 hd2a hkd hsfx
    rw [← heq] at h
    have h2 : sesMatchRest "Ses1.1sum.pdfextra".data
        = some (("1.1", "sum"), "extra".data) := rfl
    rw [h2] at h
    injection h with h
    injection h with hpair hrest
    exact absurd hrest (by decide)

/-- C5 (amended): the matcher recognizes exactly the names that begin with
a string of the form `Ses<digits>.<digits><kind>.pdf` (kind being `sum` or
`prob`), all literal parts compared case-insensitively; the match is
anchored at the start but not at the end, so arbitrary trailing characters
are allowed; for a recognized name it yields the (session-id, kind) groups
of that decomposition. -/
theorem claim_C5 (f : String) :
    ((sesMatch f).isSome = true ↔ specStartsForm f)
    ∧ (∀ sid kn, sesMatch f = some (sid, kn) →
        ∃ pre d1 d2 kd sfx rest,
          f.data = pre ++ (d1 ++ ('.' :: (d2 ++ (kd ++ (sfx ++ rest))))) ∧
          ciEq pre sesChars ∧ d1 ≠ [] ∧ d1.all isDig = true ∧
          d2 ≠ [] ∧ d2.all isDig = true ∧
          (ciEq kd sumChars ∨ ciEq kd probChars) ∧ ciEq sfx pdfChars ∧
          sid = String.mk (d1 ++ '.' :: d2) ∧ kn = String.mk kd)
    ∧ (specExactForm f → (sesMatch f).isSome = true) := by
  have hval : ∀ sid kn, sesMatch f = some (sid, kn) →
      ∃ pre d1 d2 kd sfx rest,
        f.data = pre ++ (d1 ++ ('.' :: (d2 ++ (kd ++ (sfx ++ rest))))) ∧
        ciEq pre sesChars ∧ d1 ≠ [] ∧ d1.all isDig = true ∧
        d2 ≠ [] ∧ d2.all isDig = true ∧
        (ciEq kd sumChars ∨ ciEq kd probChars) ∧ ciEq sfx pdfChars ∧
        sid = String.mk (d1 ++ '.' :: d2) ∧ kn = String.mk kd := by
    intro sid kn hm
    unfold sesMatch at hm
    cases hrest : sesMatchRest f.data with
    | none => rw [hrest] at hm; exact Option.noConfusion hm
    | some pr =>
      obtain ⟨⟨sid0, kn0⟩, rest⟩ := pr
      rw [hrest] at hm
      injection hm with hm
      injection hm with hsid hkn
      subst hsid
      subst hkn
      obtain ⟨pre, d1, d2, kd, sfx, heq, hpre, hd1, hd1a, hd2, hd2a, hkd, hsfx,
        hsid2, hkn2⟩ := sesParse_sound hrest
      exact ⟨pre, d1, d2, kd, sfx, rest, heq, hpre, hd1, hd1a, hd2, hd2a, hkd,
        hsfx, hsid2, hkn2⟩
  have hiff : (sesMatch f).isSome = true ↔ specStartsForm f := by
    constructor
    · intro hsome
      cases hm : sesMatch f with
      | none => rw [hm] at hsome; cases hsome
      | some p =>
        obtain ⟨sid, kn⟩ := p
        obtain ⟨pre, d1, d2, kd, sfx, rest, heq, hpre, hd1, hd1a, hd2, hd2a,
          hkd, hsfx, -, -⟩ := hval sid kn hm
        exact ⟨rest, pre, d1, d2, kd, sfx, heq, hpre, hd1, hd1a, hd2, hd2a, hkd, hsfx⟩
    · intro hform
      obtain ⟨rest, pre, d1, d2, kd, sfx, heq, hpre, hd1, hd1a, hd2, hd2a, hkd,
        hsfx⟩ := hform
      unfold sesMatch
      rw [heq, sesParse_complete rest hpre hd1 hd1a hd2 hd2a hkd hsfx]
      rfl
  refine ⟨hiff, hval, ?_⟩
  intro hexact
  exact hiff.mpr ⟨[], hexact⟩

theorem claim_C5_witness :
    (sesMatch "Ses1.1sum.pdf").isSome = true
    ∧ specStartsForm "Ses1.1sum.pdf" := by
  have h := claim_C5 "Ses1.1sum.pdf"
  have hs : (sesMatch "Ses1.1sum.pdf").isSome = true := rfl
  exact ⟨hs, h.1.mp hs⟩

/-- C6 counterexample: with a nonempty combined mapping but an unreadable
summary PDF, the run still exits with a nonzero status (the uncaught read
error) before producing any output, refuting the claimed "exits nonzero
before output if and only if the combined mapping is empty". -/
theorem claim_C6_counterexample :
    sessionsOf fsErr ≠ []
    ∧ script fsErr = Except.error ScriptErr.pdfErr
    ∧ writtenFiles fsErr = [] :=
  ⟨by decide, rfl, by decide⟩

/-- C6 (amended): a missing input directory is treated as empty, raising no
error; the deliberate empty-input exit (status 1) is taken if and only if
the combined session mapping is empty, and any erroring exit happens before
the output file is written; when the merge phase itself raises no PDF
error, exiting nonzero before output is equivalent to the mapping being
empty — otherwise sessions lacking a summary are skipped individually while
the remaining sessions proceed. -/
theorem claim_C6 (fs : FS) (folder : String) :
    (alookup fs.dirs folder = none → collect_files_from fs folder = [])
    ∧ (script fs = Except.error ScriptErr.exit1 ↔ sessionsOf fs = [])
    ∧ (∀ e, script fs = Except.error e → writtenFiles fs = [])
    ∧ (∀ pages, mergeSessions fs.readPdf (sessionsOf fs) = Except.ok pages →
        ((∃ e, script fs = Except.error e) ↔ sessionsOf fs = [])) := by
  have hbody : script fs = if (sessionsOf fs).isEmpty then Except.error ScriptErr.exit1
      else match mergeSessions fs.readPdf (sessionsOf fs) with
        | Except.error _ => Except.error ScriptErr.pdfErr
        | Except.ok pages => Except.ok pages := rfl
  have hb : script fs = Except.error ScriptErr.exit1 ↔ sessionsOf fs = [] := by
    constructor
    · intro h
      by_cases hse : (sessionsOf fs).isEmpty = true
      · exact isEmpty_true_iff.mp hse
      · rw [hbody, if_neg hse] at h
        cases hm : mergeSessions fs.readPdf (sessionsOf fs) with
        | error e =>
          rw [hm] at h
          injection h with h
          cases h
        | ok pages =>
          rw [hm] at h
          exact Except.noConfusion h
    · intro h
      rw [hbody, h]
      rfl
  refine ⟨?_, hb, ?_, ?_⟩
  · intro h
    unfold collect_files_from
    rw [h]
  · intro e h
    unfold writtenFiles
    rw [h]
  · intro pages hok
    constructor
    · rintro ⟨e, he⟩
      by_cases hse : (sessionsOf fs).isEmpty = true
      · exact isEmpty_true_iff.mp hse
      · rw [hbody, if_neg hse, hok] at he
        exact Except.noConfusion he
    · intro h
      exact ⟨ScriptErr.exit1, hb.mpr h⟩

theorem claim_C6_witness :
    collect_files_from fsEmpty "lecturenotes" = []
    ∧ script fsEmpty = Except.error ScriptErr.exit1
    ∧ writtenFiles fsEmpty = []
    ∧ (∃ e, script fsEmpty = Except.error e) := by
  have h := claim_C6 fsEmpty "lecturenotes"
  have hempty : sessionsOf fsEmpty = [] := rfl
  have h2 := h.2.1.mpr hempty
  exact ⟨h.1 rfl, h2, h.2.2.1 ScriptErr.exit1 h2, ⟨ScriptErr.exit1, h2⟩⟩

/-- C7 counterexample: the unreadable `problemsets/Ses1.1prob.pdf` is a
source PDF of the combined mapping, yet — since session 1.1 has no summary
and is skipped, so the file is never opened — the run completes and writes
`merged.pdf`, refuting "if any source PDF is unreadable, the entire run
aborts with no output". -/
theorem claim_C7_counterexample :
    alookup (sessionsOf fsC7) "1.1" = some [("prob", "problemsets/Ses1.1prob.pdf")]
    ∧ fsC7.readPdf "problemsets/Ses1.1prob.pdf" = Except.error ()
    ∧ script fsC7 = Except.ok [pg1, dotPage]
    ∧ writtenFiles fsC7 = [("merged.pdf", [pg1, dotPage])] :=
  ⟨by decide, rfl, rfl, by decide⟩

/-- C7 (amended): any source PDF that the run actually opens — the summary
of a session that has one, or the problem file of a session whose summary
was read — propagates its read failure: the session step fails, a failing
session step fails the whole fold, and a failing merge aborts the script
with no output file written; the output file is written exactly once, only
when the whole run succeeds. -/
theorem claim_C7 :
    (∀ fs e, script fs = Except.error e → writtenFiles fs = [])
    ∧ (∀ fs pages, script fs = Except.ok pages →
        writtenFiles fs = [("merged.pdf", pages)])
    ∧ (∀ readF out pair sp e, alookup pair "sum" = some sp →
        readF sp = Except.error e → processSession readF out pair = Except.error e)
    ∧ (∀ readF out pair sp pp d e, alookup pair "sum" = some sp →
        readF sp = Except.ok d → alookup pair "prob" = some pp →
        readF pp = Except.error e →
        processSession readF out pair = Except.error e)
    ∧ (∀ (readF : String → Except Unit Doc) (l1 : Sessions) (x : String × Entry)
          (l2 : Sessions) (init out : List Page),
        l1.foldlM (fun o p => processSession readF o p.2) init = Except.ok out →
        processSession readF out x.2 = Except.error () →
        (l1 ++ x :: l2).foldlM (fun o p => processSession readF o p.2) init
          = Except.error ())
    ∧ (∀ fs, sessionsOf fs ≠ [] →
        mergeSessions fs.readPdf (sessionsOf fs) = Except.error () →
        script fs = Except.error ScriptErr.pdfErr) := by
  refine ⟨?_, ?_, processSession_sum_err, processSession_prob_err,
    foldlM_sessions_err, ?_⟩
  · intro fs e h
    unfold writtenFiles
    rw [h]
  · intro fs pages h
    unfold writtenFiles
    rw [h]
  · intro fs hne hm
    have hbody : script fs = if (sessionsOf fs).isEmpty then Except.error ScriptErr.exit1
        else match mergeSessions fs.readPdf (sessionsOf fs) with
          | Except.error _ => Except.error ScriptErr.pdfErr
          | Except.ok pages => Except.ok pages := rfl
    rw [hbody, if_neg (fun hse => hne (isEmpty_true_iff.mp hse)), hm]

theorem claim_C7_witness :
    writtenFiles fsErr = []
    ∧ processSession (fun _ => Except.error ()) [] [("sum", "x")] = Except.error ()
    ∧ script fsErr = Except.error ScriptErr.pdfErr := by
  have h := claim_C7
  refine ⟨h.1 fsErr ScriptErr.pdfErr rfl,
    h.2.2.1 (fun _ => Except.error ()) [] [("sum", "x")] "x" () rfl rfl, ?_⟩
  exact h.2.2.2.2.2 fsErr (by decide) rfl

/-- C8 counterexample: `re.sub` replaces every non-overlapping match, not
only the first: in a name containing two pattern occurrences, the text
before the second occurrence is removed as well, so the new name differs
from the name with only its first prefix stripped. -/
theorem claim_C8_counterexample :
    renameOutcome ["xxSes1.1sum.pdfyySes2.2prob.pdf"]
      = [("xxSes1.1sum.pdfyySes2.2prob.pdf", "Ses1.1sum.pdfSes2.2prob.pdf")]
    ∧ "Ses1.1sum.pdfSes2.2prob.pdf" ≠ "Ses1.1sum.pdfyySes2.2prob.pdf" :=
  ⟨by decide, by decide⟩

/-- C8 (amended): for every filename in the directory that ends in ".pdf"
and contains "Ses", the utility renames it to the result of replacing each
non-overlapping leftmost occurrence of (lazy gap + session/kind pattern) by
the pattern match alone — stripping the text before each successive match,
not only the first — leaving the name unchanged when the substitution is
the identity; filenames not meeting both conditions are never renamed. -/
theorem claim_C8 (files : List String) (f : String) :
    (¬ (endsPdf f = true ∧ hasSes f = true) → ∀ tgt, (f, tgt) ∉ renameOutcome files)
    ∧ (subSesStr f = f → ∀ tgt, (f, tgt) ∉ renameOutcome files)
    ∧ (∀ tgt, (f, tgt) ∈ renameOutcome files → tgt = subSesStr f)
    ∧ (f ∈ files → endsPdf f = true → hasSes f = true → subSesStr f ≠ f →
        (f, subSesStr f) ∈ renameOutcome files)
    ∧ (findMatchIdx f.data = none → subSes f.data = f.data)
    ∧ (∀ pre m r, findMatchIdx f.data = some (pre, m, r) →
        subSes f.data = keepPart pre ++ m ++ subSes r
        ∧ f.data = pre ++ (m ++ r)
        ∧ (∀ i, i < pre.length → sesCS (f.data.drop i) = none)) := by
  have hstep : ∀ a tgt, (if endsPdf a && hasSes a then
      if subSesStr a ≠ a then some (a, subSesStr a) else none
      else none) = some (f, tgt) →
      a = f ∧ tgt = subSesStr f ∧ (endsPdf f = true ∧ hasSes f = true)
        ∧ subSesStr f ≠ f := by
    intro a tgt hx
    split at hx
    · rename_i hcond
      split at hx
      · rename_i hne
        injection hx with hx
        injection hx with ha htgt
        subst ha
        rw [Bool.and_eq_true] at hcond
        exact ⟨rfl, htgt.symm, hcond, hne⟩
      · exact Option.noConfusion hx
    · exact Option.noConfusion hx
  have hmem : ∀ tgt, (f, tgt) ∈ renameOutcome files →
      tgt = subSesStr f ∧ (endsPdf f = true ∧ hasSes f = true) ∧ subSesStr f ≠ f := by
    intro tgt hin
    unfold renameOutcome at hin
    rw [List.mem_filterMap] at hin
    obtain ⟨a, _, hx⟩ := hin
    obtain ⟨-, h1, h2, h3⟩ := hstep a tgt hx
    exact ⟨h1, h2, h3⟩
  refine ⟨?_, ?_, ?_, ?_, fun h => subSes_none h, ?_⟩
  · intro hnot tgt hin
    exact hnot (hmem tgt hin).2.1
  · intro heq tgt hin
    exact (hmem tgt hin).2.2 heq
  · intro tgt hin
    exact (hmem tgt hin).1
  · intro hf he hs hne
    unfold renameOutcome
    rw [List.mem_filterMap]
    refine ⟨f, hf, ?_⟩
    rw [if_pos (by rw [he, hs]; rfl), if_pos hne]
  · intro pre m r h
    obtain ⟨hl, -, -, hmin⟩ := findMatchIdx_sound h
    exact ⟨subSes_step h, hl, hmin⟩

theorem claim_C8_witness :
    subSesStr "aaSes1.1sum.pdf" = "Ses1.1sum.pdf"
    ∧ ("aaSes1.1sum.pdf", subSesStr "aaSes1.1sum.pdf")
        ∈ renameOutcome ["aaSes1.1sum.pdf"] := by
  have h := claim_C8 ["aaSes1.1sum.pdf"] "aaSes1.1sum.pdf"
  exact ⟨by decide, h.2.2.2.1 (by decide) (by decide) (by decide) (by decide)⟩

end PdfMerge
